import Mathlib

/-!
Verification of the Pricing-Options-Binomial web application against its
specification.  The TypeScript front-end glue (the `usePricingCalculations`
hook, the plot components and the API client) is embedded shallowly below;
real-number arithmetic in the source (`Math.exp`, division) is modelled with
`Real`.  The Python pricing engine is not part of the source tree, so the
parts of it that claims depend on are modelled from the specification and
marked as such.
-/

namespace Pricing

/-- The five standard sensitivities, as in the `Greeks` interface of
`usePricingCalculations`. -/
structure Greeks where
  delta : ℝ
  gamma : ℝ
  theta : ℝ
  vega : ℝ
  rho : ℝ

/-- The input form of `calculateAll` (`s0`, `k`, `t`, `r`, `sigma`, `steps`,
`q`). -/
structure CalcForm where
  s0 : ℝ
  k : ℝ
  t : ℝ
  r : ℝ
  sigma : ℝ
  steps : ℕ
  q : ℝ

/-- Put Greeks derived from the call Greeks in `calculateAll`
(hook `usePricingCalculations`):
`delta − e^(−qT)`, `gamma`, `theta`, `vega`, `rho − K·T·e^(−rT)/100`. -/
noncomputable def putGreeks (form : CalcForm) (callGreeks : Greeks) : Greeks :=
  { delta := callGreeks.delta - Real.exp (-form.q * form.t)
    gamma := callGreeks.gamma
    theta := callGreeks.theta
    vega := callGreeks.vega
    rho := callGreeks.rho - form.k * form.t * Real.exp (-form.r * form.t) / 100 }

/-- A convergence point as delivered by the API: `{ steps, price }`. -/
structure ConvPointIn where
  steps : ℕ
  price : ℝ

/-- A convergence point as displayed: `{ steps, price, error }`. -/
structure ConvPointOut where
  steps : ℕ
  price : ℝ
  error : ℝ

/-- The convergence post-processing of `calculateAll`: each response point is
mapped to `{ steps, price, error := ((price − bsCallPrice)/bsCallPrice)·100 }`. -/
noncomputable def convergenceWithError (bsCallPrice : ℝ)
    (conv : List ConvPointIn) : List ConvPointOut :=
  conv.map fun point =>
    { steps := point.steps
      price := point.price
      error := (point.price - bsCallPrice) / bsCallPrice * 100 }

end Pricing

namespace Pricing

/-- C1 counterexample input: zero call Greeks. -/
noncomputable def zeroGreeks : Greeks := ⟨0, 0, 0, 0, 0⟩

/-- C1 counterexample input: S0 = 100, K = 100, T = 1, r = 1, σ = 0.2, q = 0. -/
noncomputable def cexForm : CalcForm := ⟨100, 100, 1, 1, 1/5, 100, 0⟩

end Pricing

namespace Pricing

/-- C1 (counterexample): at S0 = 100, K = 100, T = 1, r = 1, q = 0 and zero
call Greeks, the derived put theta is 0, but the parity relation
`put theta = call theta + r·K·e^(−rT) − q·S0·e^(−qT)` demands 100·e^(−1) ≠ 0:
the hook copies the call theta unchanged. -/
theorem putGreeks_theta_cex :
    (putGreeks cexForm zeroGreeks).theta ≠
      zeroGreeks.theta + cexForm.r * cexForm.k * Real.exp (-cexForm.r * cexForm.t)
        - cexForm.q * cexForm.s0 * Real.exp (-cexForm.q * cexForm.t) := by
  have hpos : 0 < Real.exp (-(1:ℝ) * 1) := Real.exp_pos _
  simp only [putGreeks, cexForm, zeroGreeks]
  intro h
  nlinarith [hpos]

/-- C1 (amended): the derived put Greeks satisfy
`delta = call delta − e^(−qT)`, `gamma = call gamma`, `vega = call vega`,
`theta = call theta` (copied unchanged, with no parity adjustment), and
`rho = call rho − K·T·e^(−rT)/100` (the subtrahend scaled to per-percentage
point units). -/
theorem putGreeks_parity (form : CalcForm) (cg : Greeks) :
    (putGreeks form cg).delta = cg.delta - Real.exp (-form.q * form.t) ∧
    (putGreeks form cg).gamma = cg.gamma ∧
    (putGreeks form cg).vega = cg.vega ∧
    (putGreeks form cg).theta = cg.theta ∧
    (putGreeks form cg).rho
      = cg.rho - form.k * form.t * Real.exp (-form.r * form.t) / 100 := by
  refine ⟨rfl, rfl, rfl, rfl, rfl⟩

/-- C2 (counterexample): with benchmark B = 2 and a single response point of
price 1, the displayed error is −50, which is negative and differs from the
absolute relative error `|1 − 2| / 2 · 100 = 50`. -/
theorem convergence_error_cex :
    ((convergenceWithError 2 [⟨25, 1⟩]).map ConvPointOut.error = [(-50 : ℝ)]) ∧
    ¬ ((-50 : ℝ) = |(1 : ℝ) - 2| / 2 * 100 ∧ (0:ℝ) ≤ -50) := by
  constructor
  · simp [convergenceWithError]
    norm_num
  · intro h
    norm_num at h

/-- C2 (amended): for a positive benchmark B, every displayed convergence
point carries the signed relative error `((price − B)/B)·100`, whose absolute
value is `|price − B| / B · 100`; the signed value may be negative. -/
theorem convergence_error_signed (B : ℝ) (hB : 0 < B) (pts : List ConvPointIn) :
    ∀ p ∈ convergenceWithError B pts,
      p.error = (p.price - B) / B * 100 ∧
      |p.error| = |p.price - B| / B * 100 := by
  intro p hp
  simp only [convergenceWithError, List.mem_map] at hp
  obtain ⟨q, _, rfl⟩ := hp
  refine ⟨rfl, ?_⟩
  rw [abs_mul, abs_div, abs_of_pos hB]
  norm_num

/-- C2 witness: the amended statement applied at B = 2 and the single
displayed point (25, 1, −50) of the series for the point (25, 1). -/
theorem convergence_error_signed_witness :
    (⟨25, 1, -50⟩ : ConvPointOut).error
      = ((⟨25, 1, -50⟩ : ConvPointOut).price - 2) / 2 * 100 ∧
    |(⟨25, 1, -50⟩ : ConvPointOut).error|
      = |(⟨25, 1, -50⟩ : ConvPointOut).price - 2| / 2 * 100 :=
  convergence_error_signed 2 (by norm_num) [⟨25, 1⟩] ⟨25, 1, -50⟩
    (by
      simp [convergenceWithError]
      norm_num)

/-- C9: the convergence post-processing only adds the error field — the
displayed series has the same length as the response series and each point
keeps the response point's steps and price unchanged, in order. -/
theorem convergence_frame (B : ℝ) (pts : List ConvPointIn) :
    (convergenceWithError B pts).length = pts.length ∧
    (convergenceWithError B pts).map (fun p => (p.steps, p.price))
      = pts.map (fun p => (p.steps, p.price)) := by
  constructor
  · simp [convergenceWithError]
  · simp [convergenceWithError, List.map_map]

end Pricing

namespace Pricing

/-- A boundary point as delivered by the API (`time`, `stock_price`,
`time_to_maturity`). -/
structure BoundaryPoint where
  time : ℝ
  stock_price : ℝ
  time_to_maturity : ℝ

/-- A plotly trace of `PutEarlyExercisePlot`, kept to the fields the claims
are about: its legend name and its x/y data series. -/
structure PlotTrace where
  name : String
  xs : List ℝ
  ys : List ℝ

/-- `Math.max(...binomialTimes, ...trinomialTimes, 0)` of
`PutEarlyExercisePlot`. -/
noncomputable def maxBoundaryTime (bin tri : List BoundaryPoint) : ℝ :=
  ((bin.map BoundaryPoint.time) ++ (tri.map BoundaryPoint.time)).foldr max 0

/-- The trace list built by `PutEarlyExercisePlot`: a Binomial trace when the
binomial boundary is non-empty, a Trinomial trace when the trinomial boundary
is non-empty, and the strike/spot reference lines when the maximum boundary
time is positive. -/
noncomputable def putBoundaryTraces (bin tri : List BoundaryPoint)
    (strikePrice spotPrice : ℝ) : List PlotTrace :=
  (if bin.length > 0 then
    [⟨"Binomial", bin.map BoundaryPoint.time, bin.map BoundaryPoint.stock_price⟩]
  else []) ++
  (if tri.length > 0 then
    [⟨"Trinomial", tri.map BoundaryPoint.time, tri.map BoundaryPoint.stock_price⟩]
  else []) ++
  (if maxBoundaryTime bin tri > 0 then
    [⟨"Strike Price", [0, maxBoundaryTime bin tri], [strikePrice, strikePrice]⟩,
     ⟨"Current Spot", [0, maxBoundaryTime bin tri], [spotPrice, spotPrice]⟩]
  else [])

/-- `PutEarlyExercisePlot` renders the boundary chart exactly when
`traces.length > 2`; otherwise it shows the
"No early exercise boundary detected" state. -/
def rendersBoundaryChart (traces : List PlotTrace) : Prop :=
  traces.length > 2

end Pricing

namespace Pricing

/-- C3 (counterexample): a non-empty binomial put boundary consisting of the
single point (time 0, stock 95) with an empty trinomial boundary produces one
trace, so `traces.length > 2` fails and the component shows the
"no early exercise boundary detected" state despite the non-empty input. -/
theorem putBoundary_nonempty_not_rendered_cex :
    ([(⟨0, 95, 1⟩ : BoundaryPoint)] ≠ ([] : List BoundaryPoint)) ∧
    ¬ rendersBoundaryChart
        (putBoundaryTraces [(⟨0, 95, 1⟩ : BoundaryPoint)] [] 100 90) := by
  constructor
  · simp
  · simp [rendersBoundaryChart, putBoundaryTraces, maxBoundaryTime]

/-- C3 (amended): emptiness is preserved — when both put boundary sequences
are empty no trace at all is produced and no chart is rendered; the chart is
rendered exactly when at least one sequence is non-empty and the maximum
boundary time is positive, and in that case each non-empty sequence
contributes a trace holding exactly its points (times as x, stock prices as
y). -/
theorem putBoundary_render_spec (bin tri : List BoundaryPoint)
    (strikePrice spotPrice : ℝ) :
    (bin = [] ∧ tri = [] → putBoundaryTraces bin tri strikePrice spotPrice = []) ∧
    (rendersBoundaryChart (putBoundaryTraces bin tri strikePrice spotPrice) ↔
      ((bin ≠ [] ∨ tri ≠ []) ∧ 0 < maxBoundaryTime bin tri)) ∧
    (bin ≠ [] →
      (⟨"Binomial", bin.map BoundaryPoint.time, bin.map BoundaryPoint.stock_price⟩ :
        PlotTrace) ∈ putBoundaryTraces bin tri strikePrice spotPrice) ∧
    (tri ≠ [] →
      (⟨"Trinomial", tri.map BoundaryPoint.time, tri.map BoundaryPoint.stock_price⟩ :
        PlotTrace) ∈ putBoundaryTraces bin tri strikePrice spotPrice) := by
  refine ⟨?_, ?_, ?_, ?_⟩
  · rintro ⟨rfl, rfl⟩
    simp [putBoundaryTraces, maxBoundaryTime]
  · by_cases hb : bin = [] <;> by_cases ht : tri = [] <;>
      by_cases hm : 0 < maxBoundaryTime bin tri <;>
      simp_all [rendersBoundaryChart, putBoundaryTraces, List.length_pos] <;>
      simp [not_lt.mpr hm]
  · intro hb
    by_cases hm : 0 < maxBoundaryTime bin tri <;>
      simp [putBoundaryTraces, hb, hm, List.length_pos]
  · intro ht
    by_cases hm : 0 < maxBoundaryTime bin tri <;>
      simp [putBoundaryTraces, ht, hm, List.length_pos]

/-- C3 witness: the amended statement applied to a one-point binomial
boundary at time 0.5 with an empty trinomial boundary: the chart renders and
contains exactly that point. -/
theorem putBoundary_render_spec_witness :
    rendersBoundaryChart
      (putBoundaryTraces [(⟨1/2, 95, 1/2⟩ : BoundaryPoint)] [] 100 90) ∧
    (⟨"Binomial", [(1:ℝ)/2], [(95:ℝ)]⟩ : PlotTrace) ∈
      putBoundaryTraces [(⟨1/2, 95, 1/2⟩ : BoundaryPoint)] [] 100 90 := by
  have h := putBoundary_render_spec [(⟨1/2, 95, 1/2⟩ : BoundaryPoint)] [] 100 90
  refine ⟨h.2.1.mpr ⟨Or.inl (by simp), by norm_num [maxBoundaryTime]⟩, ?_⟩
  have := h.2.2.1 (by simp)
  simpa using this

end Pricing

namespace Pricing

/-- A lattice node as delivered to `TreeVisualization`
(`stock`, `european`, `american`, `early`). -/
structure TreeNode where
  stock : ℝ
  european : ℝ
  american : ℝ
  early : Bool

instance : Inhabited TreeNode := ⟨⟨0, 0, 0, false⟩⟩

/-- A retained lattice as delivered to `TreeVisualization`
(`N`, `levels`). -/
structure TreeLattice where
  N : ℕ
  levels : List (List TreeNode)

/-- The child indices tried for a node in `prepareTreeData`:
`[nodeIndex, nodeIndex+1]` for a binomial tree and
`[nodeIndex, nodeIndex+1, nodeIndex+2]` for a trinomial tree. -/
def connectIndices (isBinomial : Bool) (nodeIndex : ℕ) : List ℕ :=
  if isBinomial then [nodeIndex, nodeIndex + 1]
  else [nodeIndex, nodeIndex + 1, nodeIndex + 2]

/-- The connections drawn by the line pass of `prepareTreeData`, recorded as
`((timeStep, nodeIndex), (timeStep+1, nextNodeIndex))` pairs.  A candidate
child index is kept when it is in range for the next level (the source also
checks `nextNodeIndex >= 0`, which is vacuous over ℕ). -/
def nodeConnections (levels : List (List TreeNode)) (isBinomial : Bool) :
    List ((ℕ × ℕ) × (ℕ × ℕ)) :=
  (List.range levels.length).flatMap fun timeStep =>
    if timeStep < levels.length - 1 then
      (List.range (levels.getD timeStep []).length).flatMap fun nodeIndex =>
        (connectIndices isBinomial nodeIndex).filterMap fun nextNodeIndex =>
          if nextNodeIndex < (levels.getD (timeStep + 1) []).length then
            some ((timeStep, nodeIndex), (timeStep + 1, nextNodeIndex))
          else none
    else []

/-- Spec-side description of the binomial connections: every non-terminal
node `(i, j)` is joined to exactly the two children `(i+1, j)` and
`(i+1, j+1)`. -/
def binomialSpecConnections (numLevels : ℕ) : List ((ℕ × ℕ) × (ℕ × ℕ)) :=
  (List.range numLevels).flatMap fun i =>
    if i < numLevels - 1 then
      (List.range (i + 1)).flatMap fun j =>
        [((i, j), (i + 1, j)), ((i, j), (i + 1, j + 1))]
    else []

/-- Spec-side description of the trinomial connections: every non-terminal
node `(i, j)` is joined to exactly the three children `(i+1, j)`,
`(i+1, j+1)` and `(i+1, j+2)`. -/
def trinomialSpecConnections (numLevels : ℕ) : List ((ℕ × ℕ) × (ℕ × ℕ)) :=
  (List.range numLevels).flatMap fun i =>
    if i < numLevels - 1 then
      (List.range (2 * i + 1)).flatMap fun j =>
        [((i, j), (i + 1, j)), ((i, j), (i + 1, j + 1)), ((i, j), (i + 1, j + 2))]
    else []

/-- One entry of the node pass of `prepareTreeData`: plot position, the two
labels (kept as the underlying numbers rather than formatted strings), the
early-exercise highlight and the marker size. -/
structure NodeDatum where
  x : ℕ
  y : ℝ
  stockLabel : ℝ
  optionLabel : ℝ
  highlighted : Bool
  size : ℕ

/-- The node pass of `prepareTreeData`: levels in order, nodes within a level
in index order; y-position is `nodeIndex − (numNodes − 1)/2`; the option label
and highlight depend on the exercise type. -/
noncomputable def prepareNodeData (t : TreeLattice) (american : Bool) :
    List NodeDatum :=
  (List.range t.levels.length).flatMap fun timeStep =>
    (List.range (t.levels.getD timeStep []).length).map fun nodeIndex =>
      let level := t.levels.getD timeStep []
      let node := level.getD nodeIndex default
      { x := timeStep
        y := (nodeIndex : ℝ) - ((level.length : ℝ) - 1) / 2
        stockLabel := node.stock
        optionLabel := if american then node.american else node.european
        highlighted := american && node.early
        size := if american && node.early then 18 else 14 }

/-- The level sizes of a lattice. -/
def latticeShape (t : TreeLattice) : List ℕ := t.levels.map List.length

/-- The canonical `(level, index)`-ordered positions determined by a shape
alone. -/
noncomputable def shapePositions (shape : List ℕ) : List (ℕ × ℝ) :=
  (List.range shape.length).flatMap fun i =>
    (List.range (shape.getD i 0)).map fun (j : ℕ) =>
      (i, (j : ℝ) - ((shape.getD i 0 : ℝ) - 1) / 2)

end Pricing

namespace Pricing

theorem flatMap_congr {α β : Type} {l : List α} {f g : α → List β}
    (h : ∀ a ∈ l, f a = g a) : l.flatMap f = l.flatMap g := by
  induction l with
  | nil => rfl
  | cons x xs ih =>
      simp only [List.flatMap_cons]
      rw [h x (by simp), ih fun a ha => h a (by simp [ha])]

theorem getD_length_map (ls : List (List TreeNode)) (i : ℕ) :
    (ls.map List.length).getD i 0 = (ls.getD i []).length := by
  induction ls generalizing i with
  | nil => simp
  | cons hd tl ih =>
      cases i with
      | zero => rfl
      | succ n =>
          simp only [List.map_cons, List.getD_cons_succ]
          exact ih n

end Pricing

namespace Pricing

/-- C4: for a binomial lattice (level i has i+1 nodes) the line pass of
`prepareTreeData` connects every non-terminal node (i, j) to exactly the two
children (i+1, j) and (i+1, j+1); for a trinomial lattice (level i has 2i+1
nodes) it connects every non-terminal node (i, j) to exactly the three
children (i+1, j), (i+1, j+1) and (i+1, j+2). -/
theorem prepareTreeData_children (tb tt : TreeLattice)
    (hb : ∀ i, i < tb.levels.length → (tb.levels.getD i []).length = i + 1)
    (ht : ∀ i, i < tt.levels.length → (tt.levels.getD i []).length = 2 * i + 1) :
    nodeConnections tb.levels true = binomialSpecConnections tb.levels.length ∧
    nodeConnections tt.levels false = trinomialSpecConnections tt.levels.length := by
  constructor
  · unfold nodeConnections binomialSpecConnections
    apply flatMap_congr
    intro i hi
    rw [List.mem_range] at hi
    by_cases hlt : i < tb.levels.length - 1
    · rw [if_pos hlt, if_pos hlt, hb i hi]
      apply flatMap_congr
      intro j hj
      rw [List.mem_range] at hj
      have hnext : (tb.levels.getD (i + 1) []).length = i + 2 := by
        rw [hb (i + 1) (by omega)]
      have h1 : j < i + 2 := by omega
      have h2 : j + 1 < i + 2 := by omega
      simp only [connectIndices, hnext]
      simp [h1, h2]
    · rw [if_neg hlt, if_neg hlt]
  · unfold nodeConnections trinomialSpecConnections
    apply flatMap_congr
    intro i hi
    rw [List.mem_range] at hi
    by_cases hlt : i < tt.levels.length - 1
    · rw [if_pos hlt, if_pos hlt, ht i hi]
      apply flatMap_congr
      intro j hj
      rw [List.mem_range] at hj
      have hnext : (tt.levels.getD (i + 1) []).length = 2 * (i + 1) + 1 := by
        rw [ht (i + 1) (by omega)]
      have h1 : j < 2 * (i + 1) + 1 := by omega
      have h2 : j + 1 < 2 * (i + 1) + 1 := by omega
      have h3 : j + 2 < 2 * (i + 1) + 1 := by omega
      simp only [connectIndices, hnext]
      simp [h1, h2, h3]
    · rw [if_neg hlt, if_neg hlt]

/-- Witness node for concrete lattices. -/
noncomputable def witNode : TreeNode := ⟨100, 1, 1, false⟩

/-- A concrete two-level binomial-shaped lattice. -/
noncomputable def witBinTree : TreeLattice := ⟨1, [[witNode], [witNode, witNode]]⟩

/-- A concrete two-level trinomial-shaped lattice. -/
noncomputable def witTriTree : TreeLattice :=
  ⟨1, [[witNode], [witNode, witNode, witNode]]⟩

/-- C4 witness: the children property applied to concrete two-level binomial
and trinomial lattices. -/
theorem prepareTreeData_children_witness :
    nodeConnections witBinTree.levels true
      = binomialSpecConnections witBinTree.levels.length ∧
    nodeConnections witTriTree.levels false
      = trinomialSpecConnections witTriTree.levels.length :=
  prepareTreeData_children witBinTree witTriTree
    (by
      intro i hi
      simp only [witBinTree, List.length_cons, List.length_nil] at hi
      interval_cases i <;> rfl)
    (by
      intro i hi
      simp only [witTriTree, List.length_cons, List.length_nil] at hi
      interval_cases i <;> rfl)

/-- C8: the tree-display preparation is deterministic — on identical inputs
the node pass and the line pass produce identical outputs — and the output
node order (its (x, y) position sequence) is the canonical function of the
(level, index) order of the input lattice, depending only on the level
sizes. -/
theorem prepareTreeData_deterministic (t1 t2 : TreeLattice) (american : Bool)
    (h : t1 = t2) :
    prepareNodeData t1 american = prepareNodeData t2 american ∧
    nodeConnections t1.levels true = nodeConnections t2.levels true ∧
    nodeConnections t1.levels false = nodeConnections t2.levels false ∧
    (prepareNodeData t1 american).map (fun d => (d.x, d.y))
      = shapePositions (latticeShape t1) := by
  subst h
  refine ⟨rfl, rfl, rfl, ?_⟩
  unfold prepareNodeData shapePositions latticeShape
  rw [List.map_flatMap, List.length_map]
  apply flatMap_congr
  intro i hi
  rw [getD_length_map, List.map_map]
  rfl

/-- C8 witness: determinism and canonical node order at the concrete
two-level binomial lattice. -/
theorem prepareTreeData_deterministic_witness :
    prepareNodeData witBinTree true = prepareNodeData witBinTree true ∧
    nodeConnections witBinTree.levels true = nodeConnections witBinTree.levels true ∧
    nodeConnections witBinTree.levels false = nodeConnections witBinTree.levels false ∧
    (prepareNodeData witBinTree true).map (fun d => (d.x, d.y))
      = shapePositions (latticeShape witBinTree) :=
  prepareTreeData_deterministic witBinTree witBinTree true rfl

end Pricing

namespace Pricing

/-- An HTTP response as observed by `apiPost`: the `ok` flag, the status
code, the response text and the parsed JSON body (kept opaque). -/
structure HttpResponse where
  ok : Bool
  status : ℕ
  text : String
  body : String

instance : Inhabited HttpResponse := ⟨⟨false, 0, "", ""⟩⟩

/-- The error thrown by `apiPost` (`API ${status}: ${txt}`): it carries the
response status code and the response text. -/
structure ApiError where
  status : ℕ
  text : String

/-- The state of the network oracle: the queue of responses the server will
return, and how many requests have been issued so far. -/
structure FetchState where
  pending : List HttpResponse
  requestsMade : ℕ

/-- One `fetch` call: consumes the next pending response and counts one
request. -/
def fetchOnce (s : FetchState) : HttpResponse × FetchState :=
  (s.pending.headD default, ⟨s.pending.tail, s.requestsMade + 1⟩)

/-- `apiPost` from the API client: one `fetch`; on `res.ok` the parsed body
is returned, otherwise an error carrying the status code and the response
text is thrown.  There is no retry path. -/
def apiPost (s : FetchState) : Except ApiError String × FetchState :=
  let (res, s1) := fetchOnce s
  if res.ok then (Except.ok res.body, s1)
  else (Except.error ⟨res.status, res.text⟩, s1)

end Pricing

namespace Pricing

/-- C7: each invocation of `apiPost` issues exactly one request (the request
counter increases by exactly one, with no retry), and — writing `res` for
the response the server returns — it yields the parsed body if and only if
`res.ok`, and throws an error carrying the status code and response text if
and only if `¬ res.ok`. -/
theorem apiPost_spec (s : FetchState) :
    (apiPost s).2.requestsMade = s.requestsMade + 1 ∧
    (apiPost s).2.pending = s.pending.tail ∧
    ((apiPost s).1 = Except.ok (s.pending.headD default).body ↔
      (s.pending.headD default).ok = true) ∧
    ((apiPost s).1 = Except.error ⟨(s.pending.headD default).status,
        (s.pending.headD default).text⟩ ↔
      (s.pending.headD default).ok = false) := by
  cases hok : (s.pending.headD default).ok <;>
    · simp only [apiPost, fetchOnce, hok]
      simp

end Pricing

namespace Pricing

/-- The Black-Scholes section of the displayed results. -/
structure BSResult where
  callPrice : ℝ
  putPrice : ℝ
  callGreeks : Greeks
  putGreeks : Greeks

/-- A lattice-model section of the displayed results. -/
structure LatticeResult where
  europeanCall : ℝ
  europeanPut : ℝ
  americanCall : ℝ
  americanPut : ℝ
  convergence : List ConvPointOut
  boundaryPut : List BoundaryPoint
  boundaryCall : List BoundaryPoint

/-- The retained trees of the API response (put/call × binomial/trinomial). -/
structure TreesResult where
  putBinomial : TreeLattice
  putTrinomial : TreeLattice
  callBinomial : TreeLattice
  callTrinomial : TreeLattice

/-- The validation report of the API response, kept to the fields the claims
are about. -/
structure ValidationResultsR where
  overall_passed : Bool
  total_tests : ℕ
  passed_tests : ℕ

/-- One lattice-model block of the API response. -/
structure LatticeResponse where
  european_call : ℝ
  european_put : ℝ
  american_call : ℝ
  american_put : ℝ
  convergence : List ConvPointIn
  boundary_put : List BoundaryPoint
  boundary_call : List BoundaryPoint

/-- The `/api/calculate` response consumed by `calculateAll`. -/
structure ApiResponse where
  call_price : ℝ
  put_price : ℝ
  greeks : Greeks
  binomial : LatticeResponse
  trinomial : LatticeResponse
  trees : TreesResult
  validation : ValidationResultsR

/-- The `results` state of `usePricingCalculations`: five independently
nullable sections. -/
structure ResultsState where
  blackScholes : Option BSResult
  binomial : Option LatticeResult
  trinomial : Option LatticeResult
  trees : Option TreesResult
  validation : Option ValidationResultsR

/-- The hook state: the `loading` flag and the `results` record. -/
structure HookState where
  loading : Bool
  results : ResultsState

/-- The all-null `results` value `calculateAll` resets to. -/
def emptyResults : ResultsState := ⟨none, none, none, none, none⟩

/-- The fully populated `results` value assembled from one API response. -/
noncomputable def fullResults (form : CalcForm) (resp : ApiResponse) :
    ResultsState :=
  { blackScholes := some
      { callPrice := resp.call_price
        putPrice := resp.put_price
        callGreeks := resp.greeks
        putGreeks := putGreeks form resp.greeks }
    binomial := some
      { europeanCall := resp.binomial.european_call
        europeanPut := resp.binomial.european_put
        americanCall := resp.binomial.american_call
        americanPut := resp.binomial.american_put
        convergence := convergenceWithError resp.call_price resp.binomial.convergence
        boundaryPut := resp.binomial.boundary_put
        boundaryCall := resp.binomial.boundary_call }
    trinomial := some
      { europeanCall := resp.trinomial.european_call
        europeanPut := resp.trinomial.european_put
        americanCall := resp.trinomial.american_call
        americanPut := resp.trinomial.american_put
        convergence := convergenceWithError resp.call_price resp.trinomial.convergence
        boundaryPut := resp.trinomial.boundary_put
        boundaryCall := resp.trinomial.boundary_call }
    trees := some resp.trees
    validation := some resp.validation }

/-- One state-changing step of `calculateAll`. -/
inductive HookEvent where
  | setLoading (b : Bool)
  | setResults (r : ResultsState)

/-- Applying a step to the hook state. -/
def applyEvent (s : HookState) : HookEvent → HookState
  | HookEvent.setLoading b => { s with loading := b }
  | HookEvent.setResults r => { s with results := r }

/-- The ordered state updates performed by one invocation of `calculateAll`:
`setLoading(true)`, the all-null reset, then — in the success case — the
single full `setResults`; the `catch` branch performs no `setResults`; the
`finally` branch always runs `setLoading(false)`. -/
noncomputable def calculateAllEvents (form : CalcForm)
    (outcome : Except ApiError ApiResponse) : List HookEvent :=
  [HookEvent.setLoading true, HookEvent.setResults emptyResults] ++
  (match outcome with
   | Except.ok resp => [HookEvent.setResults (fullResults form resp)]
   | Except.error _ => []) ++
  [HookEvent.setLoading false]

/-- The hook state after one completed invocation of `calculateAll`. -/
noncomputable def calculateAllFinal (form : CalcForm)
    (outcome : Except ApiError ApiResponse) (init : HookState) : HookState :=
  (calculateAllEvents form outcome).foldl applyEvent init

end Pricing

namespace Pricing

/-- C10: `calculateAll` is atomic over the result state — after any completed
invocation, `loading` is false, and the result sections are either all
populated from the single API response (success) or all null (failure);
no partial mixture survives, whatever the initial state. -/
theorem calculateAll_atomic (form : CalcForm)
    (outcome : Except ApiError ApiResponse) (init : HookState) :
    (calculateAllFinal form outcome init).loading = false ∧
    (calculateAllFinal form outcome init).results =
      (match outcome with
       | Except.ok resp => fullResults form resp
       | Except.error _ => emptyResults) := by
  cases outcome <;>
    simp [calculateAllFinal, calculateAllEvents, applyEvent]

end Pricing

namespace Pricing

/-- Modelled from the spec: a node of the LatticeEngine
(`api/app/services/pricing.py`, which is not in the source tree): stock
price, European value, American value and the early-exercise flag. -/
structure EngineNode where
  stock : ℝ
  european : ℝ
  american : ℝ
  early : Bool

instance : Inhabited EngineNode := ⟨⟨0, 0, 0, false⟩⟩

/-- Modelled from the spec: the derived lattice parameters consumed by the
backward induction — branching arity (2 or 3), risk-neutral probabilities
and the per-step discount factor. -/
structure EngineParams where
  arity : ℕ
  probs : List ℝ
  disc : ℝ

/-- Modelled from the spec: intrinsic value — `max(S−K, 0)` for calls and
`max(K−S, 0)` for puts. -/
noncomputable def intrinsicValue (isCall : Bool) (strike stock : ℝ) : ℝ :=
  if isCall then max (stock - strike) 0 else max (strike - stock) 0

/-- Modelled from the spec: level i of a lattice with branching arity a has
`(a−1)·i + 1` nodes (i+1 for binomial, 2i+1 for trinomial). -/
def levelSize (arity i : ℕ) : ℕ := (arity - 1) * i + 1

/-- Modelled from the spec: the continuation value at child offset j — the
discounted probability-weighted combination of the corresponding child
values, reading the children's field selected by `f`. -/
noncomputable def continuation (p : EngineParams) (f : EngineNode → ℝ)
    (next : List EngineNode) (j : ℕ) : ℝ :=
  p.disc *
    ((List.range p.arity).map fun k =>
      p.probs.getD k 0 * f (next.getD (j + k) default)).sum

/-- Modelled from the spec: one backward-induction step producing level i
from the already-computed level i+1.  The European value is the European
continuation; the American value is the maximum of the American continuation
and the intrinsic value, with `early` set when intrinsic strictly exceeds
continuation. -/
noncomputable def buildLevel (p : EngineParams) (stockFn : ℕ → ℕ → ℝ)
    (isCall : Bool) (strike : ℝ) (i : ℕ) (next : List EngineNode) :
    List EngineNode :=
  (List.range (levelSize p.arity i)).map fun j =>
    { stock := stockFn i j
      european := continuation p EngineNode.european next j
      american := max (continuation p EngineNode.american next j)
        (intrinsicValue isCall strike (stockFn i j))
      early :=
        if continuation p EngineNode.american next j
            < intrinsicValue isCall strike (stockFn i j) then true else false }

/-- Modelled from the spec: the terminal level — payoffs for both exercise
styles, no early-exercise flag. -/
noncomputable def terminalLevel (p : EngineParams) (stockFn : ℕ → ℕ → ℝ)
    (isCall : Bool) (strike : ℝ) (N : ℕ) : List EngineNode :=
  (List.range (levelSize p.arity N)).map fun j =>
    { stock := stockFn N j
      european := intrinsicValue isCall strike (stockFn N j)
      american := intrinsicValue isCall strike (stockFn N j)
      early := false }

/-- Modelled from the spec: the last m+1 levels of the lattice, built
backwards from the terminal level N. -/
noncomputable def backLevels (p : EngineParams) (stockFn : ℕ → ℕ → ℝ)
    (isCall : Bool) (strike : ℝ) (N : ℕ) : ℕ → List (List EngineNode)
  | 0 => [terminalLevel p stockFn isCall strike N]
  | m + 1 =>
      buildLevel p stockFn isCall strike (N - (m + 1))
          ((backLevels p stockFn isCall strike N m).headD []) ::
        backLevels p stockFn isCall strike N m

/-- Modelled from the spec: the full retained lattice, root level first. -/
noncomputable def latticeEngine (p : EngineParams) (stockFn : ℕ → ℕ → ℝ)
    (isCall : Bool) (strike : ℝ) (N : ℕ) : List (List EngineNode) :=
  backLevels p stockFn isCall strike N N

/-- The root node of a lattice. -/
noncomputable def rootNode (lattice : List (List EngineNode)) : EngineNode :=
  (lattice.headD []).headD default

end Pricing

namespace Pricing

theorem backLevels_head_mem (p : EngineParams) (stockFn : ℕ → ℕ → ℝ)
    (isCall : Bool) (strike : ℝ) (N m : ℕ) :
    (backLevels p stockFn isCall strike N m).headD [] ∈
      backLevels p stockFn isCall strike N m := by
  cases m <;> simp [backLevels]

theorem nodewise_american_ge (p : EngineParams) (stockFn : ℕ → ℕ → ℝ)
    (isCall : Bool) (strike : ℝ) (N : ℕ)
    (hdisc : 0 ≤ p.disc) (hprobs : ∀ k, 0 ≤ p.probs.getD k 0) (m : ℕ) :
    ∀ level ∈ backLevels p stockFn isCall strike N m,
      ∀ node ∈ level, node.european ≤ node.american := by
  induction m with
  | zero =>
      intro level hlevel node hnode
      simp only [backLevels, List.mem_singleton] at hlevel
      subst hlevel
      simp only [terminalLevel, List.mem_map] at hnode
      obtain ⟨j, _, rfl⟩ := hnode
      exact le_refl _
  | succ m ih =>
      intro level hlevel node hnode
      simp only [backLevels, List.mem_cons] at hlevel
      rcases hlevel with rfl | hlevel
      · simp only [buildLevel, List.mem_map] at hnode
        obtain ⟨j, _, rfl⟩ := hnode
        simp only
        refine le_trans ?_ (le_max_left _ _)
        unfold continuation
        apply mul_le_mul_of_nonneg_left ?_ hdisc
        apply List.sum_le_sum
        intro k _
        apply mul_le_mul_of_nonneg_left ?_ (hprobs k)
        set next := (backLevels p stockFn isCall strike N m).headD [] with hnext
        by_cases hj : j + k < next.length
        · rw [List.getD_eq_getElem next default hj]
          exact ih next (backLevels_head_mem p stockFn isCall strike N m)
            next[j + k] (List.getElem_mem hj)
        · rw [List.getD_eq_default next default (le_of_not_lt hj)]
          exact le_refl _
      · exact ih level hlevel node hnode

end Pricing

namespace Pricing

/-- C5 (amended): for non-negative discount factor and probabilities, every
node of the lattice has American value ≥ European value; at every
backward-induction node the American value equals the maximum of the
continuation value computed from the child AMERICAN values and the intrinsic
value (not of the European continuation, which it only dominates); and the
root American price is at least the root European price (in particular for
puts). -/
theorem latticeEngine_american_dominates (p : EngineParams)
    (stockFn : ℕ → ℕ → ℝ) (isCall : Bool) (strike : ℝ) (N : ℕ)
    (hdisc : 0 ≤ p.disc) (hprobs : ∀ k, 0 ≤ p.probs.getD k 0) :
    (∀ level ∈ latticeEngine p stockFn isCall strike N,
      ∀ node ∈ level, node.european ≤ node.american) ∧
    (∀ i next j, j < levelSize p.arity i →
      ((buildLevel p stockFn isCall strike i next).getD j default).american
        = max (continuation p EngineNode.american next j)
            (intrinsicValue isCall strike (stockFn i j))) ∧
    (rootNode (latticeEngine p stockFn isCall strike N)).european
      ≤ (rootNode (latticeEngine p stockFn isCall strike N)).american := by
  have hnw := nodewise_american_ge p stockFn isCall strike N hdisc hprobs N
  refine ⟨hnw, ?_, ?_⟩
  · intro i next j hj
    have hlen : (buildLevel p stockFn isCall strike i next).length
        = levelSize p.arity i := by
      simp [buildLevel]
    rw [List.getD_eq_getElem _ _ (by rw [hlen]; exact hj)]
    simp [buildLevel]
  · have hmem := backLevels_head_mem p stockFn isCall strike N N
    unfold rootNode latticeEngine
    cases hl : (backLevels p stockFn isCall strike N N).headD [] with
    | nil => exact le_refl _
    | cons a t =>
        have ha : a ∈ (backLevels p stockFn isCall strike N N).headD [] := by
          rw [hl]
          exact List.mem_cons_self a t
        have := hnw _ hmem a ha
        simpa [hl] using this

/-- C5 counterexample parameters: binomial arity, probabilities 1/2 each,
no discounting. -/
noncomputable def cexEngineParams : EngineParams := ⟨2, [1/2, 1/2], 1⟩

/-- C5 counterexample stock grid: S0 = 4, u = 2, d = 1/2, so node (i,j)
carries 4·2^i/4^j. -/
noncomputable def cexStockFn : ℕ → ℕ → ℝ := fun i j => 4 * 2 ^ i / 4 ^ j

/-- C5 counterexample lattice: two-step American/European put with
strike 4. -/
noncomputable def cexLattice : List (List EngineNode) :=
  latticeEngine cexEngineParams cexStockFn false 4 2

end Pricing

namespace Pricing

theorem cexLattice_root : rootNode cexLattice = ⟨4, 3/4, 1, false⟩ := by
  norm_num [rootNode, cexLattice, latticeEngine, backLevels, buildLevel,
    terminalLevel, levelSize, continuation, cexStockFn, cexEngineParams,
    intrinsicValue, List.range_succ, max_def]

/-- C5 (counterexample): in a two-step put lattice (S0 = 4, K = 4, u = 2,
d = 1/2, p = 1/2, no discounting) the root American value is 1, while the
maximum of the root European continuation value (3/4) and the intrinsic
value (0) is 3/4: the American value exceeds max(European continuation,
intrinsic) because its continuation is computed from the child American
values. -/
theorem american_not_euro_continuation_cex :
    (rootNode cexLattice).american = 1 ∧
    max (rootNode cexLattice).european
      (intrinsicValue false 4 (rootNode cexLattice).stock) = 3/4 ∧
    (rootNode cexLattice).american ≠
      max (rootNode cexLattice).european
        (intrinsicValue false 4 (rootNode cexLattice).stock) := by
  rw [cexLattice_root]
  norm_num [intrinsicValue, max_def]

/-- C5 witness: the dominance theorem applied to the concrete two-step put
lattice, with the hypotheses (non-negative discount and probabilities)
discharged numerically. -/
theorem latticeEngine_american_dominates_witness :
    (rootNode (latticeEngine cexEngineParams cexStockFn false 4 2)).european
      ≤ (rootNode (latticeEngine cexEngineParams cexStockFn false 4 2)).american :=
  (latticeEngine_american_dominates cexEngineParams cexStockFn false 4 2
    (by norm_num [cexEngineParams])
    (by
      intro k
      rcases k with _ | _ | k <;> norm_num [cexEngineParams])).2.2

end Pricing

namespace Pricing

/-- Modelled from the spec: the market parameters of the AnalyticPricer
(`api/app/services/black_scholes.py`, which is not in the source tree). -/
structure MarketParams where
  s0 : ℝ
  k : ℝ
  t : ℝ
  r : ℝ
  sigma : ℝ
  q : ℝ

/-- Modelled from the spec: the error function, as used by the cumulative
standard normal distribution. -/
noncomputable def erfReal (x : ℝ) : ℝ :=
  (2 / Real.sqrt Real.pi) * ∫ s in (0:ℝ)..x, Real.exp (-(s ^ 2))

/-- Modelled from the spec: the cumulative standard normal distribution. -/
noncomputable def normCdf (x : ℝ) : ℝ := (1 + erfReal (x / Real.sqrt 2)) / 2

/-- Modelled from the spec: the d1 term of the closed form, with the spot
drift adjusted for the continuous dividend yield q. -/
noncomputable def bsD1 (m : MarketParams) : ℝ :=
  (Real.log (m.s0 / m.k) + (m.r - m.q + m.sigma ^ 2 / 2) * m.t)
    / (m.sigma * Real.sqrt m.t)

/-- Modelled from the spec: the d2 term of the closed form. -/
noncomputable def bsD2 (m : MarketParams) : ℝ := bsD1 m - m.sigma * Real.sqrt m.t

/-- Modelled from the spec: the fixed epsilon below which σ·√T is treated as
degenerate. -/
noncomputable def degenEps : ℝ := 1e-8

/-- Modelled from the spec: the analytic European call price — discounted
intrinsic (forward) value in the degenerate branch, otherwise the standard
closed form with dividend yield. -/
noncomputable def bsCallPrice (m : MarketParams) : ℝ :=
  if m.sigma * Real.sqrt m.t < degenEps then
    max (m.s0 * Real.exp (-m.q * m.t) - m.k * Real.exp (-m.r * m.t)) 0
  else
    m.s0 * Real.exp (-m.q * m.t) * normCdf (bsD1 m)
      - m.k * Real.exp (-m.r * m.t) * normCdf (bsD2 m)

/-- Modelled from the spec: the analytic European put price. -/
noncomputable def bsPutPrice (m : MarketParams) : ℝ :=
  if m.sigma * Real.sqrt m.t < degenEps then
    max (m.k * Real.exp (-m.r * m.t) - m.s0 * Real.exp (-m.q * m.t)) 0
  else
    m.k * Real.exp (-m.r * m.t) * normCdf (-(bsD2 m))
      - m.s0 * Real.exp (-m.q * m.t) * normCdf (-(bsD1 m))

end Pricing

namespace Pricing

theorem erfReal_neg (x : ℝ) : erfReal (-x) = -erfReal x := by
  unfold erfReal
  have hcomp := intervalIntegral.integral_comp_neg (a := (0:ℝ)) (b := x)
    (f := fun s => Real.exp (-(s ^ 2)))
  have heven : (∫ s in (0:ℝ)..x, Real.exp (-((-s) ^ 2)))
      = ∫ s in (0:ℝ)..x, Real.exp (-(s ^ 2)) := by
    congr 1
    funext s
    ring_nf
  have hsymm := intervalIntegral.integral_symm (μ := MeasureTheory.volume)
    (f := fun s => Real.exp (-(s ^ 2))) (-x) 0
  rw [heven, neg_zero] at hcomp
  rw [hcomp, hsymm]
  ring

theorem normCdf_add_neg (x : ℝ) : normCdf x + normCdf (-x) = 1 := by
  unfold normCdf
  rw [neg_div, erfReal_neg]
  ring

/-- C6: for all valid MarketParams (S0 > 0, K > 0, T > 0, σ > 0, q ≥ 0), the
analytic call and put prices satisfy put-call parity:
`|call − put − (S0·e^(−qT) − K·e^(−rT))| ≤ 1e-10` (the residual is in fact
exactly zero in both the regular and the degenerate branch). -/
theorem bs_put_call_parity (m : MarketParams)
    (h0 : 0 < m.s0) (hk : 0 < m.k) (ht : 0 < m.t)
    (hs : 0 < m.sigma) (hq : 0 ≤ m.q) :
    |bsCallPrice m - bsPutPrice m
      - (m.s0 * Real.exp (-m.q * m.t) - m.k * Real.exp (-m.r * m.t))|
      ≤ 1e-10 := by
  have key : bsCallPrice m - bsPutPrice m
      = m.s0 * Real.exp (-m.q * m.t) - m.k * Real.exp (-m.r * m.t) := by
    unfold bsCallPrice bsPutPrice
    by_cases hdeg : m.sigma * Real.sqrt m.t < degenEps
    · rw [if_pos hdeg, if_pos hdeg]
      rcases le_total (m.s0 * Real.exp (-m.q * m.t))
          (m.k * Real.exp (-m.r * m.t)) with hle | hle
      · rw [max_eq_right (by linarith), max_eq_left (by linarith)]
        ring
      · rw [max_eq_left (by linarith), max_eq_right (by linarith)]
        ring
    · rw [if_neg hdeg, if_neg hdeg]
      have h1 := normCdf_add_neg (bsD1 m)
      have h2 := normCdf_add_neg (bsD2 m)
      linear_combination (m.s0 * Real.exp (-m.q * m.t)) * h1
        - (m.k * Real.exp (-m.r * m.t)) * h2
  rw [key, sub_self, abs_zero]
  norm_num

/-- C6 witness: parity at S0 = K = T = σ = 1, r = q = 0. -/
theorem bs_put_call_parity_witness :
    |bsCallPrice ⟨1, 1, 1, 0, 1, 0⟩ - bsPutPrice ⟨1, 1, 1, 0, 1, 0⟩
      - (1 * Real.exp (-(0:ℝ) * 1) - 1 * Real.exp (-(0:ℝ) * 1))| ≤ 1e-10 :=
  bs_put_call_parity ⟨1, 1, 1, 0, 1, 0⟩
    (by norm_num) (by norm_num) (by norm_num) (by norm_num) (by norm_num)

end Pricing
